import Mathlib

/-!
# zimgo: archive handle, bounded reads and extraction

A shallow embedding of `src/zimgo.go`.

* `*os.File` is an `Option OsFile`: `none` is the nil pointer, `some f` a file
  object with its bytes, its read cursor and a closed flag.
* The result of `Open` and `Read` is an `Outcome`: a value, an error, or no
  return at all (a run-time panic or an abort). A call that only reports an
  error returns an `Option Error`, `none` being Go's `nil`.
* The longest byte slice `make` can return in a run is a field of a
  `Machine`; the largest offset a file's file system accepts is a field of
  the `OsFile`.
* The file tree, the container (zip) library and the failures the operating
  system reports for reasons outside the tree are the fields of a `World`.
-/

namespace Zimgo

/-- One byte of a file. -/
abbrev Byte := Fin 256

/-- The error values the code can return. -/
inductive Error where
  /-- `io.EOF`: a read of at least one byte at or after the end of the file. -/
  | EOF
  /-- `os.ErrInvalid`: a method called on a nil `*os.File`. -/
  | ErrInvalid
  /-- `os.ErrClosed`: a method called on a file that is already closed. -/
  | ErrClosed
  /-- `EINVAL`: a seek to a negative offset. -/
  | EINVAL
  /-- `ENOENT`: no file at the path, or the empty path. -/
  | ENOENT
  /-- `ENOTDIR`: a component of the path is not a directory. -/
  | ENOTDIR
  /-- `EISDIR`: the path to open for writing is a directory. -/
  | EISDIR
  /-- `errors.New("invalid zim file format")`. -/
  | InvalidFormat
  /-- `errors.New("unexpected end of the file")`. -/
  | UnexpectedEnd
  /-- Any other failure reported by the operating system or a library. -/
  | other (code : Nat)
  deriving DecidableEq, Repr

/-- The result of a Go call: a value, an error, or no return (a run-time
panic such as `makeslice: len out of range`, or an out-of-memory abort). -/
inductive Outcome (α : Type) where
  | ok (a : α)
  | fail (e : Error)
  | panicked
  deriving DecidableEq, Repr

/-- The constant `zimMagicHeader = "ZIM\x00\x00\x00\x00\x00\x00\x00\x00"`, as bytes. -/
def zimMagicHeader : List Byte := [0x5A, 0x49, 0x4D, 0, 0, 0, 0, 0, 0, 0, 0]

/-- The struct `ZimHeader`; `CreationTime` is a `time.Time`, here an instant
counted from the zero time. -/
structure ZimHeader where
  Version : Nat
  CreationTime : Int
  deriving DecidableEq, Repr

/-- The struct `ZimIndexEntry`. -/
structure ZimIndexEntry where
  Offset : Int
  Size : Int
  deriving DecidableEq, Repr

/-- The largest value of an `int64`, the type of file offsets. -/
def maxInt64 : Nat := 2 ^ 63 - 1

/-- The process a call runs in: `allocLimit` is the length of the longest
byte slice `make` returns there; a longer one panics (`makeslice: len out of
range`) or aborts the program (out of memory). -/
structure Machine where
  allocLimit : Nat
  deriving DecidableEq, Repr

/-- An `os.File` object: a regular file's bytes, the read cursor, whether
`Close` has been called on it, and the largest offset its file system
accepts in a seek. -/
structure OsFile where
  content : List Byte
  pos : Nat
  closed : Bool
  maxOffset : Nat
  deriving DecidableEq, Repr

/-- What holds of every file: it ends within the offsets its file system
accepts, and these are `int64` values. -/
def OsFile.wellFormed (f : OsFile) : Prop :=
  f.content.length ≤ f.maxOffset ∧ f.maxOffset ≤ maxInt64

instance (f : OsFile) : Decidable f.wellFormed := by
  unfold OsFile.wellFormed; infer_instance

/-- The struct `ZimFile`. The map `Index` is an association list. -/
structure ZimFile where
  FileHandle : Option OsFile
  File : Option OsFile
  FilePath : String
  Header : ZimHeader
  Index : List (String × ZimIndexEntry)
  CompressionAlgorithm : String
  Checksum : String
  deriving DecidableEq, Repr

/-! ## `os.File` methods -/

/-- The method `(*os.File).Seek(offset, 0)`: returns the error and the file
afterwards. An offset that is negative or beyond what the file system
accepts is refused with `EINVAL`; an offset past the end of the file is
accepted. -/
def osSeek (f : Option OsFile) (offset : Int) : Option Error × Option OsFile :=
  match f with
  | none => (some Error.ErrInvalid, none)
  | some f =>
    if f.closed then (some Error.ErrClosed, some f)
    else if offset < 0 ∨ (f.maxOffset : Int) < offset then (some Error.EINVAL, some f)
    else (none, some { f with pos := offset.toNat })

/-- The method `(*os.File).Read(b)` on a regular file: returns `(n, err)`, the
buffer afterwards and the file afterwards. A read into an empty buffer
returns `0, nil` without a system call; a read whose range ends beyond the
largest `int64` offset is refused with `EINVAL`; a read with nothing left
returns `0, io.EOF`; otherwise `min(len(b), remaining)` bytes are delivered
into the front of `b` (the read model the specification's read properties
are stated for: one call delivers all that is there). -/
def osRead (f : Option OsFile) (b : List Byte) :
    (Nat × Option Error) × List Byte × Option OsFile :=
  match f with
  | none => ((0, some Error.ErrInvalid), b, none)
  | some f =>
    if f.closed then ((0, some Error.ErrClosed), b, some f)
    else if b.length = 0 then ((0, none), b, some f)
    else if maxInt64 < f.pos + b.length then ((0, some Error.EINVAL), b, some f)
    else if f.content.length ≤ f.pos then ((0, some Error.EOF), b, some f)
    else
      let got := (f.content.drop f.pos).take b.length
      ((got.length, none), got ++ b.drop got.length,
        some { f with pos := f.pos + got.length })

/-- The method `(*os.File).Close()`. -/
def osClose (f : Option OsFile) : Option Error × Option OsFile :=
  match f with
  | none => (some Error.ErrInvalid, none)
  | some f =>
    if f.closed then (some Error.ErrClosed, some f)
    else (none, some { f with closed := true })

/-! ## `ZimFile.Read` and `ZimFile.Close` -/

/-- The method `ZimFile.Read(offset, size)`, run on machine `m`: seek,
allocate `size` zero bytes (`make` does not return for a negative `size` or
one beyond the allocation limit), read once, compare the count. -/
def ZimFile.Read (zf : ZimFile) (m : Machine) (offset : Int) (size : Int) :
    Outcome (List Byte) × ZimFile :=
  match osSeek zf.File offset with
  | (some err, file) => (Outcome.fail err, { zf with File := file })
  | (none, file) =>
    if size < 0 ∨ (m.allocLimit : Int) < size then
      (Outcome.panicked, { zf with File := file })
    else
      match osRead file (List.replicate size.toNat (0 : Byte)) with
      | ((_, some err), _, file1) => (Outcome.fail err, { zf with File := file1 })
      | ((n, none), data, file1) =>
        if (n : Int) ≠ size then (Outcome.fail Error.UnexpectedEnd, { zf with File := file1 })
        else (Outcome.ok data, { zf with File := file1 })

/-- The method `ZimFile.Close()`: returns the error and the handle afterwards. -/
def ZimFile.Close (zf : ZimFile) : Option Error × ZimFile :=
  match zf.File with
  | some f => ((osClose (some f)).1, { zf with File := none })
  | none => (none, zf)

/-! ## The world outside the program -/

/-- A call made to the operating system's file API. -/
inductive FsCall where
  | osOpen (path : String)
  | mkdirAll (path : String)
  | create (path : String)
  | write (path : String)
  deriving DecidableEq, Repr

/-- One member of the container listing `zipFile.File`: its name, the byte
stream its reader delivers, and the error of `file.Open()` if it fails. -/
structure ZipEntry where
  Name : String
  body : List Byte
  openErr : Option Error
  deriving DecidableEq, Repr

/-- The environment of a run.

* `files` maps a cleaned path to the bytes of the regular file there;
* `dirs` tells which cleaned paths name a directory;
* `container` is what `zip.OpenReader` returns for a path: an error, or the
  listing `zipFile.File` (the zip library is not part of the program);
* `fault` tells which calls fail for a reason outside the tree (permissions,
  a full disk, a name the file system does not accept, a member stream that
  breaks during the copy), and with what error; the
  failures that come from the tree itself (a missing parent, a file where a
  directory is needed, a directory where a file is to be written, the empty
  path) are computed from `files` and `dirs` by the calls below;
* `partialWrite` is the number of bytes a failing copy has written;
* `trace` is the list of calls `Extract` has issued so far, oldest first,
  whether they failed or not. -/
structure World where
  files : String → Option (List Byte)
  dirs : String → Bool
  container : String → Except Error (List ZipEntry)
  fault : FsCall → Option Error
  partialWrite : String → Nat
  trace : List FsCall

/-- The call `os.Open(path)`. -/
def osOpen (w : World) (path : String) : Except Error OsFile :=
  match w.fault (FsCall.osOpen path) with
  | some e => Except.error e
  | none =>
    match w.files path with
    | none => Except.error Error.ENOENT
    | some c => Except.ok { content := c, pos := 0, closed := false, maxOffset := maxInt64 }

/-! ## `Open` -/

/-- The function `Open(filePath)`. The file it opens is local to the call and
closed by the deferred `file.Close()`; the count returned by `file.Read` is
discarded; the handle returned carries the path only. The 11-byte buffer is
taken to be within the allocation limit of every machine. -/
def Open (w : World) (filePath : String) : Outcome ZimFile :=
  match osOpen w filePath with
  | Except.error err => Outcome.fail err
  | Except.ok file =>
    match osRead (some file) (List.replicate zimMagicHeader.length (0 : Byte)) with
    | ((_, some err), _, _) => Outcome.fail err
    | ((_, none), magicHeader, _) =>
      if magicHeader ≠ zimMagicHeader then Outcome.fail Error.InvalidFormat
      else Outcome.ok
        { FileHandle := none, File := none, FilePath := filePath,
          Header := { Version := 0, CreationTime := 0 }, Index := [],
          CompressionAlgorithm := "", Checksum := "" }

/-! ## `path/filepath` (Unix)

The standard library is not part of the program; its lexical path functions
are given here by what they compute. Paths are processed element by
element: a path is split at every `/`, the elements are cleaned with a
stack, and the result is joined again. A path is a text of characters; the
separator `/` is one character. -/

namespace filepath

/-- The parent-directory element `..`. -/
def dotdot : List Char := ['.', '.']

/-- One element of the path meets the stack of elements kept so far (top
first): an empty element and `.` are dropped; `..` removes the element
before it, is dropped at the root of a rooted path, and is kept where a
relative path has nothing left to remove; any other element is kept. -/
def cleanStep (rooted : Bool) (stack : List (List Char)) (seg : List Char) :
    List (List Char) :=
  if seg = [] ∨ seg = ['.'] then stack
  else if seg = dotdot then
    match stack with
    | [] => if rooted then [] else [seg]
    | top :: below => if top = dotdot then seg :: stack else below
  else seg :: stack

/-- The cleaned elements of a list of path elements, first element first. -/
def cleanSegs (rooted : Bool) (segs : List (List Char)) : List (List Char) :=
  (segs.foldl (cleanStep rooted) []).reverse

/-- Whether a path starts with the separator. -/
def isRooted (p : List Char) : Bool := p.head? = some '/'

/-- The text of a cleaned path: the elements joined by `/`, after a leading
`/` when rooted; the empty relative path is `.`. -/
def render (rooted : Bool) (segs : List (List Char)) : List Char :=
  if rooted then '/' :: List.intercalate ['/'] segs
  else if segs = [] then ['.'] else List.intercalate ['/'] segs

/-- The cleaned elements of a path text. -/
def segsOf (p : List Char) : List (List Char) :=
  cleanSegs (isRooted p) (p.splitOn '/')

/-- The function `filepath.Clean`. -/
def Clean (path : String) : String :=
  String.mk (render (isRooted path.data) (segsOf path.data))

/-- The function `filepath.Join` for two elements: empty leading elements
are skipped, the rest is joined by `/` and cleaned; all empty gives `""`. -/
def Join (a b : String) : String :=
  if a ≠ "" then Clean (a ++ "/" ++ b)
  else if b ≠ "" then Clean b
  else ""

/-- The text of a path up to and including its last separator. -/
def dirPrefix (p : List Char) : List Char :=
  (p.reverse.dropWhile (fun c => c ≠ '/')).reverse

/-- The function `filepath.Dir`. -/
def Dir (path : String) : String := Clean (String.mk (dirPrefix path.data))

/-- The cleaned path and every directory above it, as texts. -/
def ancestors (path : String) : List String :=
  (List.inits (segsOf path.data)).map
    (fun pre => String.mk (render (isRooted path.data) pre))

/-- Whether path `p` lies inside the directory `root`, element by element:
both are rooted or both relative, the cleaned elements of `root` start the
cleaned elements of `p`, and no `..` follows them. -/
def inside (root p : String) : Prop :=
  isRooted root.data = isRooted p.data ∧
    segsOf root.data <+: segsOf p.data ∧
    dotdot ∉ (segsOf p.data).drop (segsOf root.data).length

instance (root p : String) : Decidable (inside root p) := by
  unfold inside; infer_instance

end filepath

/-! ## File-system calls

A call resolves its path lexically (there are no symbolic links) and works
on the cleaned path. -/

/-- The file map with the file at `path` set to `c`. -/
def setFile (files : String → Option (List Byte)) (path : String) (c : List Byte) :
    String → Option (List Byte) :=
  fun q => if q = path then some c else files q

/-- The call `os.MkdirAll(path, os.ModePerm)`: the empty path is refused
with `ENOENT`; if the path or a directory above it is a regular file the
call fails with `ENOTDIR` and makes nothing; otherwise the path and every
directory above it are directories afterwards. -/
def World.MkdirAll (w : World) (path : String) : Option Error × World :=
  if path = "" then
    (some Error.ENOENT, { w with trace := w.trace ++ [FsCall.mkdirAll path] })
  else
    match w.fault (FsCall.mkdirAll path) with
    | some e => (some e, { w with trace := w.trace ++ [FsCall.mkdirAll path] })
    | none =>
      if (filepath.ancestors path).any (fun d => (w.files d).isSome) then
        (some Error.ENOTDIR, { w with trace := w.trace ++ [FsCall.mkdirAll path] })
      else
        (none, { w with
          trace := w.trace ++ [FsCall.mkdirAll path],
          dirs := fun q => (filepath.ancestors path).contains q || w.dirs q })

/-- The call `os.Create(path)`: the empty path is refused with `ENOENT`, a
directory with `EISDIR`; the parent must be a directory (`ENOTDIR` if it is
a regular file, `ENOENT` if it is missing); otherwise the file exists
afterwards and is empty. -/
def World.Create (w : World) (path : String) : Option Error × World :=
  if path = "" then
    (some Error.ENOENT, { w with trace := w.trace ++ [FsCall.create path] })
  else
    match w.fault (FsCall.create path) with
    | some e => (some e, { w with trace := w.trace ++ [FsCall.create path] })
    | none =>
      if w.dirs (filepath.Clean path) then
        (some Error.EISDIR, { w with trace := w.trace ++ [FsCall.create path] })
      else if (w.files (filepath.Dir (filepath.Clean path))).isSome then
        (some Error.ENOTDIR, { w with trace := w.trace ++ [FsCall.create path] })
      else if w.dirs (filepath.Dir (filepath.Clean path)) = false then
        (some Error.ENOENT, { w with trace := w.trace ++ [FsCall.create path] })
      else
        (none, { w with
          trace := w.trace ++ [FsCall.create path],
          files := setFile w.files (filepath.Clean path) [] })

/-- The call `io.Copy(destFile, srcFile)` into the file just created at
`path`: all of `src` arrives, or the copy fails after `partialWrite` bytes. -/
def World.Copy (w : World) (path : String) (src : List Byte) : Option Error × World :=
  match w.fault (FsCall.write path) with
  | some e =>
    (some e, { w with
      trace := w.trace ++ [FsCall.write path],
      files := setFile w.files (filepath.Clean path) (src.take (w.partialWrite path)) })
  | none =>
    (none, { w with
      trace := w.trace ++ [FsCall.write path],
      files := setFile w.files (filepath.Clean path) src })

/-! ## `ZimFile.Extract` -/

/-- The body of the loop `for _, file := range zipFile.File` in `Extract`. -/
def extractLoop (destPath : String) : List ZipEntry → World → Option Error × World
  | [], w => (none, w)
  | file :: rest, w =>
    let destFilePath := filepath.Join destPath file.Name
    match w.MkdirAll (filepath.Dir destFilePath) with
    | (some err, w1) => (some err, w1)
    | (none, w1) =>
      match file.openErr with
      | some err => (some err, w1)
      | none =>
        match w1.Create destFilePath with
        | (some err, w2) => (some err, w2)
        | (none, w2) =>
          match w2.Copy destFilePath file.body with
          | (some err, w3) => (some err, w3)
          | (none, w3) => extractLoop destPath rest w3

/-- The method `ZimFile.Extract(destPath)`: returns the error and the world
afterwards. Only the field `FilePath` of the handle is used. -/
def ZimFile.Extract (zf : ZimFile) (destPath : String) (w : World) :
    Option Error × World :=
  match w.container zf.FilePath with
  | Except.error err => (some err, w)
  | Except.ok entries =>
    match w.MkdirAll destPath with
    | (some err, w1) => (some err, w1)
    | (none, w1) => extractLoop destPath entries w1

/-! ## Auxiliary definitions: concrete inputs, and the notions the theorems use -/

/-- The zero `ZimFile` with only `FilePath` set, as `&ZimFile{FilePath: path}`. -/
def handleAt (path : String) : ZimFile :=
  { FileHandle := none, File := none, FilePath := path,
    Header := { Version := 0, CreationTime := 0 }, Index := [],
    CompressionAlgorithm := "", Checksum := "" }

/-- A handle whose `File` is a freshly opened file with content `c`. -/
def handleOn (path : String) (c : List Byte) : ZimFile :=
  { handleAt path with
    File := some { content := c, pos := 0, closed := false, maxOffset := maxInt64 } }

/-- A 64-bit Go process with memory to spare: `make` returns byte slices of
up to 2^48 bytes. -/
def machine64 : Machine := { allocLimit := 2 ^ 48 }

/-- A world with one regular file, the directories `/` and `.`, no
container and no fault. -/
def worldWith (path : String) (c : List Byte) : World :=
  { files := fun q => if q = path then some c else none,
    dirs := fun q => decide (q = "/") || decide (q = "."),
    container := fun _ => Except.error Error.ENOENT,
    fault := fun _ => none,
    partialWrite := fun _ => 0,
    trace := [] }

/-- An archive of `n` bytes, the byte at position `i` being `i mod 256`. -/
def rampBytes (n : Nat) : List Byte := (List.range n).map (fun i => Fin.ofNat i)

/-- The open file of an archive of `n` bytes. -/
def rampFile (n : Nat) : OsFile :=
  { content := rampBytes n, pos := 0, closed := false, maxOffset := maxInt64 }

/-- A handle on the open file of an archive of `n` bytes. -/
def rampHandle (n : Nat) : ZimFile := { handleAt "a.zim" with File := some (rampFile n) }

/-- The open file of a sparse file of 2^48 + 1 zero bytes. -/
def hugeFile : OsFile :=
  { content := List.replicate (2 ^ 48 + 1) 0, pos := 0, closed := false,
    maxOffset := maxInt64 }

/-- The buffer `magicHeader` after `file.Read` on a file with content `c`:
the bytes read, then the zero bytes of `make` that the read did not reach. -/
def headerBuffer (c : List Byte) : List Byte :=
  c.take zimMagicHeader.length ++ List.replicate (zimMagicHeader.length - c.length) 0

/-- The bytes of the text `NOTZIM`. -/
def notZimBytes : List Byte := [0x4E, 0x4F, 0x54, 0x5A, 0x49, 0x4D]

/-- The signature, version 1 as a little-endian 32-bit integer, a timestamp. -/
def archiveV1LE : List Byte :=
  zimMagicHeader ++ [1, 0, 0, 0] ++ [0x65, 0x43, 0x21, 0, 0, 0, 0, 0]

/-- The signature, version 1 as a big-endian 32-bit integer, a timestamp. -/
def archiveV1BE : List Byte :=
  zimMagicHeader ++ [0, 0, 0, 1] ++ [0, 0, 0, 0, 0, 0x21, 0x43, 0x65]

/-- A world in which `zip.OpenReader(path)` lists `entries`, the tree holds
the directories `/` and `.` only, and the operating system refuses no call. -/
def zipWorld (path : String) (entries : List ZipEntry) : World :=
  { files := fun _ => none,
    dirs := fun q => decide (q = "/") || decide (q = "."),
    container := fun q => if q = path then Except.ok entries else Except.error Error.ENOENT,
    fault := fun _ => none,
    partialWrite := fun _ => 0,
    trace := [] }

/-- The calls `Extract` issues for one member of the listing. -/
def entryCalls (destPath : String) (e : ZipEntry) : List FsCall :=
  [FsCall.mkdirAll (filepath.Dir (filepath.Join destPath e.Name)),
   FsCall.create (filepath.Join destPath e.Name),
   FsCall.write (filepath.Join destPath e.Name)]

/-- The file map after the members of a listing have been written in order,
each to its joined path, with no call failing. -/
def extractedFiles (destPath : String) :
    List ZipEntry → (String → Option (List Byte)) → String → Option (List Byte)
  | [], files => files
  | e :: rest, files =>
    extractedFiles destPath rest (setFile files (filepath.Join destPath e.Name) e.body)

/-- A directory the extraction of `entries` into `destPath` needs: the
root or a directory above it, or the directory of a member's joined path or
a directory above that. -/
def neededDir (destPath : String) (entries : List ZipEntry) (d : String) : Prop :=
  d ∈ filepath.ancestors destPath ∨
    ∃ e ∈ entries, d ∈ filepath.ancestors (filepath.Dir (filepath.Join destPath e.Name))

instance (destPath : String) (entries : List ZipEntry) (d : String) :
    Decidable (neededDir destPath entries d) := by
  unfold neededDir; infer_instance

/-- The world after one member has been extracted with no call failing:
its directories made, its file written, its three calls issued. -/
def afterEntry (destPath : String) (w : World) (e : ZipEntry) : World :=
  { w with
    trace := w.trace ++ entryCalls destPath e,
    dirs := fun q =>
      (filepath.ancestors (filepath.Dir (filepath.Join destPath e.Name))).contains q ||
        w.dirs q,
    files := setFile w.files (filepath.Join destPath e.Name) e.body }

/-- The listing of the scenario: `dir/page.html` and `image.png`. -/
def siteEntries : List ZipEntry :=
  [⟨"dir/page.html", [0x3C, 0x70, 0x3E], none⟩, ⟨"image.png", [0x89, 0x50, 0x4E, 0x47], none⟩]

namespace filepath

/-- An element that cleaning keeps: not empty, not `.`, without separator. -/
def okSeg (s : List Char) : Prop := s ≠ [] ∧ s ≠ ['.'] ∧ '/' ∉ s

/-- The shape of a stack of kept elements (top first): every element is
proper, `..` elements sit at the bottom only, and a rooted path has none. -/
def NormStack (rooted : Bool) (S : List (List Char)) : Prop :=
  (∀ s ∈ S, okSeg s) ∧
    ∃ k rest, S = rest ++ List.replicate k dotdot ∧ dotdot ∉ rest ∧ (rooted = true → k = 0)

end filepath

/-- The path a call is issued on. -/
def FsCall.path : FsCall → String
  | FsCall.osOpen p => p
  | FsCall.mkdirAll p => p
  | FsCall.create p => p
  | FsCall.write p => p

/-- A member name that stays below the directory it is joined to: cleaned
on its own as a relative path it is not empty and keeps no `..` element. -/
def safeName (name : String) : Prop :=
  filepath.cleanSegs false (name.data.splitOn '/') ≠ [] ∧
    filepath.dotdot ∉ filepath.cleanSegs false (name.data.splitOn '/')

instance (name : String) : Decidable (safeName name) := by
  unfold safeName; infer_instance

/-- A listing whose names stay below the root, one of them through `..`. -/
def tameEntries : List ZipEntry :=
  [⟨"a/../b.txt", [1], none⟩, ⟨"dir/page.html", [2], none⟩]

/-! ## Reading -/

theorem osSeek_open (f : OsFile) (o : Nat) (hopen : f.closed = false)
    (hmax : o ≤ f.maxOffset) :
    osSeek (some f) (o : Int) = (none, some { f with pos := o }) := by
  simp [osSeek, hopen, Nat.not_lt.mpr hmax]

theorem osSeek_beyond (f : OsFile) (o : Nat) (hopen : f.closed = false)
    (hmax : f.maxOffset < o) :
    osSeek (some f) (o : Int) = (some Error.EINVAL, some f) := by
  simp [osSeek, hopen, hmax]

theorem osRead_empty (f : OsFile) (hopen : f.closed = false) :
    osRead (some f) [] = ((0, none), [], some f) := by
  simp [osRead, hopen]

theorem osRead_open (f : OsFile) (b : List Byte) (hopen : f.closed = false)
    (hb : b.length ≠ 0) (hin : f.pos + b.length ≤ maxInt64)
    (hpos : f.pos < f.content.length) :
    osRead (some f) b =
      ((((f.content.drop f.pos).take b.length).length, none),
        (f.content.drop f.pos).take b.length ++
          b.drop ((f.content.drop f.pos).take b.length).length,
        some { f with pos := f.pos + ((f.content.drop f.pos).take b.length).length }) := by
  simp [osRead, hopen, hb, Nat.not_le.mpr hpos, Nat.not_lt.mpr hin]

theorem osRead_eof (f : OsFile) (b : List Byte) (hopen : f.closed = false)
    (hb : b.length ≠ 0) (hin : f.pos + b.length ≤ maxInt64)
    (hpos : f.content.length ≤ f.pos) :
    osRead (some f) b = ((0, some Error.EOF), b, some f) := by
  simp [osRead, hopen, hb, hpos, Nat.not_lt.mpr hin]

theorem osRead_overflow (f : OsFile) (b : List Byte) (hopen : f.closed = false)
    (hb : b.length ≠ 0) (hin : maxInt64 < f.pos + b.length) :
    osRead (some f) b = ((0, some Error.EINVAL), b, some f) := by
  simp [osRead, hopen, hb, hin]

theorem Read_fits (m : Machine) (zf : ZimFile) (f : OsFile) (o n : Nat)
    (hfile : zf.File = some f) (hopen : f.closed = false)
    (hmax : o ≤ f.maxOffset) (hcap : n ≤ m.allocLimit) (hin : o + n ≤ maxInt64)
    (hfit : o + n ≤ f.content.length) :
    (zf.Read m (o : Int) (n : Int)).1 = Outcome.ok ((f.content.drop o).take n) := by
  have hlen : ((f.content.drop o).take n).length = n := by
    simp [List.length_take, List.length_drop]; omega
  have hneg : ¬ (m.allocLimit < n) := Nat.not_lt.mpr hcap
  have hnn : ¬ ((n : Int) < 0) := by omega
  rcases Nat.eq_zero_or_pos n with hn | hn
  · subst hn
    have hr := osRead_empty { f with pos := o } hopen
    have hneg0 : ¬ ((m.allocLimit : Int) < 0) := by omega
    simp [ZimFile.Read, hfile, osSeek_open f o hopen hmax, hr, hneg0]
  · have hpos : o < f.content.length := by omega
    have hr := osRead_open { f with pos := o } (List.replicate n (0 : Byte)) hopen
      (by simp; omega) (by simpa using hin) hpos
    simp only [List.length_replicate] at hr
    simp [ZimFile.Read, hfile, osSeek_open f o hopen hmax, hneg, hnn, hr, hlen]

theorem Read_zero (m : Machine) (zf : ZimFile) (f : OsFile) (o : Nat)
    (hfile : zf.File = some f) (hopen : f.closed = false) (hmax : o ≤ f.maxOffset) :
    (zf.Read m (o : Int) 0).1 = Outcome.ok [] := by
  have hr := osRead_empty { f with pos := o } hopen
  have hneg : ¬ ((m.allocLimit : Int) < 0) := by omega
  simp [ZimFile.Read, hfile, osSeek_open f o hopen hmax, hr, hneg]

theorem Read_straddle (m : Machine) (zf : ZimFile) (f : OsFile) (o n : Nat)
    (hfile : zf.File = some f) (hopen : f.closed = false)
    (hmax : o ≤ f.maxOffset) (hcap : n ≤ m.allocLimit) (hin : o + n ≤ maxInt64)
    (hpos : o < f.content.length) (hover : f.content.length < o + n) :
    (zf.Read m (o : Int) (n : Int)).1 = Outcome.fail Error.UnexpectedEnd := by
  have hneg : ¬ (m.allocLimit < n) := Nat.not_lt.mpr hcap
  have hnn : ¬ ((n : Int) < 0) := by omega
  have hlen : ((f.content.drop o).take n).length = f.content.length - o := by
    simp [List.length_take, List.length_drop]; omega
  have hr := osRead_open { f with pos := o } (List.replicate n (0 : Byte)) hopen
    (by simp; omega) (by simpa using hin) hpos
  simp only [List.length_replicate] at hr
  have hne : ¬ (f.content.length - o = n) := by omega
  simp [ZimFile.Read, hfile, osSeek_open f o hopen hmax, hneg, hnn, hr, hlen, hne]

theorem Read_at_end (m : Machine) (zf : ZimFile) (f : OsFile) (o n : Nat)
    (hfile : zf.File = some f) (hopen : f.closed = false)
    (hmax : o ≤ f.maxOffset) (hcap : n ≤ m.allocLimit) (hin : o + n ≤ maxInt64)
    (hn : 0 < n) (hpos : f.content.length ≤ o) :
    (zf.Read m (o : Int) (n : Int)).1 = Outcome.fail Error.EOF := by
  have hneg : ¬ (m.allocLimit < n) := Nat.not_lt.mpr hcap
  have hnn : ¬ ((n : Int) < 0) := by omega
  have hr := osRead_eof { f with pos := o } (List.replicate n (0 : Byte)) hopen
    (by simp; omega) (by simpa using hin) hpos
  simp [ZimFile.Read, hfile, osSeek_open f o hopen hmax, hneg, hnn, hr]

theorem Read_overflow (m : Machine) (zf : ZimFile) (f : OsFile) (o n : Nat)
    (hfile : zf.File = some f) (hopen : f.closed = false)
    (hmax : o ≤ f.maxOffset) (hcap : n ≤ m.allocLimit) (hn : 0 < n)
    (hin : maxInt64 < o + n) :
    (zf.Read m (o : Int) (n : Int)).1 = Outcome.fail Error.EINVAL := by
  have hneg : ¬ (m.allocLimit < n) := Nat.not_lt.mpr hcap
  have hnn : ¬ ((n : Int) < 0) := by omega
  have hr := osRead_overflow { f with pos := o } (List.replicate n (0 : Byte)) hopen
    (by simp; omega) (by simpa using hin)
  simp [ZimFile.Read, hfile, osSeek_open f o hopen hmax, hneg, hnn, hr]

theorem Read_seek_refused (m : Machine) (zf : ZimFile) (f : OsFile) (o : Nat) (size : Int)
    (hfile : zf.File = some f) (hopen : f.closed = false) (hmax : f.maxOffset < o) :
    (zf.Read m (o : Int) size).1 = Outcome.fail Error.EINVAL := by
  simp [ZimFile.Read, hfile, osSeek_beyond f o hopen hmax]

theorem Read_too_large (m : Machine) (zf : ZimFile) (f : OsFile) (o n : Nat)
    (hfile : zf.File = some f) (hopen : f.closed = false)
    (hmax : o ≤ f.maxOffset) (hcap : m.allocLimit < n) :
    (zf.Read m (o : Int) (n : Int)).1 = Outcome.panicked := by
  simp [ZimFile.Read, hfile, osSeek_open f o hopen hmax, hcap]

theorem Read_ok_length (m : Machine) (zf : ZimFile) (offset size : Int) (data : List Byte)
    (h : (zf.Read m offset size).1 = Outcome.ok data) : (data.length : Int) = size := by
  unfold ZimFile.Read at h
  rcases hF : zf.File with _ | f
  · simp [hF, osSeek] at h
  · rw [hF] at h
    by_cases hc : f.closed = true
    · simp [osSeek, hc] at h
    · by_cases ho : offset < 0 ∨ (f.maxOffset : Int) < offset
      · simp [osSeek, hc, ho] at h
      · by_cases hs : size < 0 ∨ (m.allocLimit : Int) < size
        · simp [osSeek, hc, ho, hs] at h
        · have hs0 : 0 ≤ size := by omega
          obtain ⟨n, rfl⟩ := Int.eq_ofNat_of_zero_le hs0
          simp only [osSeek, hc, ho, hs, osRead, if_false, Bool.false_eq_true,
            Int.toNat_ofNat, List.length_replicate] at h
          by_cases hn : n = 0
          · subst hn
            simp at h
            simp [← h]
          · by_cases hv : maxInt64 < offset.toNat + n
            · simp [hn, hv] at h
            · by_cases he : f.content.length ≤ offset.toNat
              · simp [hn, hv, he] at h
              · simp only [hn, hv, he, if_false] at h
                split at h
                · simp at h
                · rename_i hk
                  have hk' : ((f.content.drop offset.toNat).take n).length = n := by
                    have := not_not.mp hk
                    exact_mod_cast this
                  simp only [Outcome.ok.injEq] at h
                  subst h
                  simp [List.length_append, List.length_drop, List.length_replicate, hk']

/-- C1 (amended). On a handle whose `File` is an open file with content `c`,
a read of `size ≥ 0` bytes at `offset ≥ 0` with `offset + size ≤ len(c)` and
`size` within the allocation limit of the machine returns no error and
exactly the `size` bytes `c[offset .. offset+size)`. -/
theorem read_in_range (m : Machine) (zf : ZimFile) (f : OsFile) (offset size : Int)
    (hfile : zf.File = some f) (hopen : f.closed = false) (hwf : f.wellFormed)
    (hoff : 0 ≤ offset) (hsize : 0 ≤ size) (hcap : size ≤ (m.allocLimit : Int))
    (hfit : offset + size ≤ (f.content.length : Int)) :
    (zf.Read m offset size).1 =
        Outcome.ok ((f.content.drop offset.toNat).take size.toNat) ∧
      (((f.content.drop offset.toNat).take size.toNat).length : Int) = size := by
  obtain ⟨o, rfl⟩ := Int.eq_ofNat_of_zero_le hoff
  obtain ⟨n, rfl⟩ := Int.eq_ofNat_of_zero_le hsize
  obtain ⟨hw1, hw2⟩ := hwf
  have hfit' : o + n ≤ f.content.length := by exact_mod_cast hfit
  have hcap' : n ≤ m.allocLimit := by exact_mod_cast hcap
  refine ⟨by simpa using Read_fits m zf f o n hfile hopen (by omega) hcap' (by omega) hfit', ?_⟩
  simp [List.length_take, List.length_drop]; omega

/-- C1 (amended), at offset 1024 and size 50 on an archive of 1074 bytes. -/
theorem read_in_range_witness :
    ((rampHandle 1074).Read machine64 1024 50).1 =
        Outcome.ok (((rampFile 1074).content.drop (1024 : Int).toNat).take (50 : Int).toNat) ∧
      ((((rampFile 1074).content.drop (1024 : Int).toNat).take (50 : Int).toNat).length : Int)
        = 50 :=
  read_in_range machine64 (rampHandle 1074) (rampFile 1074) 1024 50 rfl rfl
    (by simp [OsFile.wellFormed, rampFile, rampBytes, maxInt64])
    (by decide) (by decide) (by decide) (by simp [rampFile, rampBytes])

theorem hugeFile_length : hugeFile.content.length = 2 ^ 48 + 1 :=
  List.length_replicate (2 ^ 48 + 1) (0 : Byte)

/-- C1 as stated fails twice. At its own scenario: on an archive of 1050
bytes only 26 bytes follow offset 1024, so the read of 50 bytes at offset
1024 fails with "unexpected end of the file". And beyond the allocation
limit: on a (sparse) file of 2^48 + 1 bytes the read of the whole file does
not return, `make` panics before anything is read. -/
theorem read_claimed_range_fails :
    ((rampFile 1050).content.length = 1050 ∧
      ((rampHandle 1050).Read machine64 1024 50).1 = Outcome.fail Error.UnexpectedEnd) ∧
    (hugeFile.wellFormed ∧ hugeFile.content.length = 2 ^ 48 + 1 ∧
      ({ handleAt "huge.zim" with File := some hugeFile }.Read machine64 0
        ((2 ^ 48 + 1 : Nat) : Int)).1 = Outcome.panicked) := by
  refine ⟨⟨by simp [rampFile, rampBytes], ?_⟩, ⟨⟨?_, Nat.le_refl _⟩, hugeFile_length, ?_⟩⟩
  · exact Read_straddle machine64 (rampHandle 1050) (rampFile 1050) 1024 50 rfl rfl
      (by decide) (by decide) (by decide)
      (by simp [rampFile, rampBytes]) (by simp [rampFile, rampBytes])
  · rw [hugeFile_length]
    decide
  · exact Read_too_large machine64 { handleAt "huge.zim" with File := some hugeFile }
      hugeFile 0 (2 ^ 48 + 1) rfl rfl (Nat.zero_le _) (by decide)

theorem Open_of_file (w : World) (path : String) (c : List Byte)
    (hfile : w.files path = some c) (hok : w.fault (FsCall.osOpen path) = none) :
    Open w path =
      if c = [] then Outcome.fail Error.EOF
      else if headerBuffer c ≠ zimMagicHeader then Outcome.fail Error.InvalidFormat
      else Outcome.ok (handleAt path) := by
  by_cases hc : c = []
  · subst hc
    simp [Open, osOpen, hfile, hok, osRead, zimMagicHeader, maxInt64]
  · have hpos : 0 < c.length := List.length_pos.mpr hc
    have hr := osRead_open { content := c, pos := 0, closed := false, maxOffset := maxInt64 }
      (List.replicate zimMagicHeader.length (0 : Byte)) rfl (by simp [zimMagicHeader])
      (by simp [zimMagicHeader, maxInt64]) hpos
    simp only [List.length_replicate, List.drop_zero, List.drop_replicate,
      List.length_take] at hr
    have hmin : zimMagicHeader.length - min zimMagicHeader.length c.length =
        zimMagicHeader.length - c.length := by omega
    rw [hmin] at hr
    simp only [Open, osOpen, hfile, hok, hr, hc, if_false, headerBuffer, handleAt]

theorem headerBuffer_get (bs : List Byte) (i : Nat)
    (hi : i < zimMagicHeader.length) (hic : i < bs.length) :
    (headerBuffer bs)[i]? = bs[i]? := by
  unfold headerBuffer
  rw [List.getElem?_append_left (by simp [List.length_take]; omega)]
  simp [List.getElem?_take, hi]

/-- C3. If a readable archive has, among its first 11 bytes, a byte that
differs from the byte of the magic signature at the same position, `Open`
fails with "invalid zim file format" and returns no handle. -/
theorem open_rejects_mismatch (w : World) (path : String) (bs : List Byte)
    (hfile : w.files path = some bs) (hok : w.fault (FsCall.osOpen path) = none)
    (i : Nat) (hi : i < zimMagicHeader.length) (hic : i < bs.length)
    (hne : bs[i]? ≠ zimMagicHeader[i]?) :
    Open w path = Outcome.fail Error.InvalidFormat := by
  have hc : bs ≠ [] := by
    intro h; subst h; simp at hic
  have hbuf : headerBuffer bs ≠ zimMagicHeader := by
    intro h
    apply hne
    rw [← headerBuffer_get bs i hi hic, h]
  rw [Open_of_file w path bs hfile hok]
  simp [hc, hbuf]

/-- C3, on an archive that starts with `NOTZIM`. -/
theorem open_rejects_mismatch_witness :
    Open (worldWith "bad.zim" notZimBytes) "bad.zim" = Outcome.fail Error.InvalidFormat :=
  open_rejects_mismatch (worldWith "bad.zim" notZimBytes) "bad.zim" notZimBytes
    (by simp [worldWith]) rfl 0 (by decide) (by decide) (by decide)

/-- C4, the code at the failing input: on the 3-byte archive `ZIM` the read
delivers 3 bytes without an error, the count is discarded, the 8 untouched
zero bytes of the buffer complete the signature, and `Open` returns a
handle and no error. The same happens on the 10-byte archive `ZIM`
followed by 7 zero bytes. -/
theorem open_accepts_short_archive :
    Open (worldWith "short.zim" [0x5A, 0x49, 0x4D]) "short.zim" =
        Outcome.ok (handleAt "short.zim") ∧
      Open (worldWith "short.zim" [0x5A, 0x49, 0x4D, 0, 0, 0, 0, 0, 0, 0]) "short.zim" =
        Outcome.ok (handleAt "short.zim") := by
  constructor
  · rw [Open_of_file _ "short.zim" [0x5A, 0x49, 0x4D] (by simp [worldWith]) rfl]
    decide
  · rw [Open_of_file _ "short.zim" [0x5A, 0x49, 0x4D, 0, 0, 0, 0, 0, 0, 0]
      (by simp [worldWith]) rfl]
    decide

/-- C5, the code at the failing input: on the archive that is exactly the
11 signature bytes `Open` succeeds, the handle it returns has a nil `File`,
and `Read(0, 11)` on that handle fails with `os.ErrInvalid`, on every
machine. -/
theorem open_handle_cannot_read :
    Open (worldWith "a.zim" zimMagicHeader) "a.zim" = Outcome.ok (handleAt "a.zim") ∧
      (handleAt "a.zim").File = none ∧
      ∀ m : Machine, ((handleAt "a.zim").Read m 0 11).1 = Outcome.fail Error.ErrInvalid := by
  refine ⟨?_, rfl, fun _ => rfl⟩
  rw [Open_of_file _ "a.zim" zimMagicHeader (by simp [worldWith]) rfl]
  decide

/-- C6 (amended). On every readable archive that starts with the 11
signature bytes, whatever follows them, `Open` succeeds and returns the
handle with `FilePath` set and every other field zero: `Header.Version` is
0, the version field of the archive is not decoded. -/
theorem open_signature_zero_header (w : World) (path : String) (rest : List Byte)
    (hfile : w.files path = some (zimMagicHeader ++ rest))
    (hok : w.fault (FsCall.osOpen path) = none) :
    Open w path = Outcome.ok (handleAt path) ∧ (handleAt path).Header.Version = 0 := by
  refine ⟨?_, rfl⟩
  rw [Open_of_file w path _ hfile hok]
  have hb : headerBuffer (zimMagicHeader ++ rest) = zimMagicHeader := by
    simp [headerBuffer, List.take_append_eq_append_take]
  have hc : zimMagicHeader ++ rest ≠ [] := by simp [zimMagicHeader]
  simp [hb, hc]

/-- C6 (amended), on an archive with version 1. -/
theorem open_signature_zero_header_witness :
    Open (worldWith "a.zim" archiveV1LE) "a.zim" = Outcome.ok (handleAt "a.zim") ∧
      (handleAt "a.zim").Header.Version = 0 :=
  open_signature_zero_header (worldWith "a.zim" archiveV1LE) "a.zim"
    ([1, 0, 0, 0] ++ [0x65, 0x43, 0x21, 0, 0, 0, 0, 0])
    (by simp [worldWith, archiveV1LE]) rfl

/-- C6 as stated fails at version 1, in either byte order: `Open` succeeds
and the handle's `Header.Version` is 0, not 1. -/
theorem open_version_not_decoded :
    (∃ zf, Open (worldWith "a.zim" archiveV1LE) "a.zim" = Outcome.ok zf ∧
        zf.Header.Version = 0 ∧ zf.Header.Version ≠ 1) ∧
      (∃ zf, Open (worldWith "a.zim" archiveV1BE) "a.zim" = Outcome.ok zf ∧
        zf.Header.Version = 0 ∧ zf.Header.Version ≠ 1) := by
  refine ⟨⟨handleAt "a.zim", ?_, rfl, by decide⟩, ⟨handleAt "a.zim", ?_, rfl, by decide⟩⟩
  · rw [Open_of_file _ "a.zim" archiveV1LE (by simp [worldWith]) rfl]
    decide
  · rw [Open_of_file _ "a.zim" archiveV1BE (by simp [worldWith]) rfl]
    decide

/-! ## Closing -/

theorem Close_file (zf : ZimFile) : (zf.Close).2 = { zf with File := none } := by
  unfold ZimFile.Close
  rcases hF : zf.File with _ | f
  · cases zf
    simp_all
  · simp

theorem Read_nil (m : Machine) (zf : ZimFile) (hF : zf.File = none) (offset size : Int) :
    zf.Read m offset size = (Outcome.fail Error.ErrInvalid, zf) := by
  cases zf
  simp_all [ZimFile.Read, osSeek]

theorem Close_nil (zf : ZimFile) (hF : zf.File = none) : zf.Close = (none, zf) := by
  simp [ZimFile.Close, hF]

/-- C7 (amended). After `Close` the field `File` is nil; `Read` then fails
with `os.ErrInvalid` for every offset and size, on every machine, and leaves
the handle as it is; `Extract` never consults `File` and does on the closed
handle exactly what it does on the handle before `Close`. -/
theorem closed_handle_operations (m : Machine) (zf : ZimFile) (offset size : Int)
    (destPath : String) (w : World) :
    (zf.Close).2.File = none ∧
      (zf.Close).2.Read m offset size = (Outcome.fail Error.ErrInvalid, (zf.Close).2) ∧
      (zf.Close).2.Extract destPath w = zf.Extract destPath w := by
  have hF : (zf.Close).2.File = none := by rw [Close_file]
  refine ⟨hF, Read_nil m _ hF offset size, ?_⟩
  rw [Close_file]
  rfl

/-- C7 as stated fails for `Extract`: on a handle that has been closed,
`Extract("/out")` returns no error and writes the member of the archive. -/
theorem extract_after_close_succeeds :
    ((handleOn "site.zim" zimMagicHeader).Close).1 = none ∧
      (((handleOn "site.zim" zimMagicHeader).Close).2.Extract "/out"
        (zipWorld "site.zim" [⟨"index.html", [0x68, 0x69, 0x0A], none⟩])).1 = none ∧
      (((handleOn "site.zim" zimMagicHeader).Close).2.Extract "/out"
        (zipWorld "site.zim" [⟨"index.html", [0x68, 0x69, 0x0A], none⟩])).2.files
          "/out/index.html" = some [0x68, 0x69, 0x0A] := by
  refine ⟨by decide, by decide, by decide⟩

/-- C8. The first `Close` leaves the handle with `File` nil and every other
field unchanged; every later `Close` returns no error and leaves that state
as it is. -/
theorem close_idempotent (zf : ZimFile) :
    (zf.Close).2 = { zf with File := none } ∧
      ∀ n : Nat,
        ZimFile.Close ((fun z : ZimFile => (z.Close).2)^[n] (zf.Close).2) =
          (none, (zf.Close).2) := by
  refine ⟨Close_file zf, ?_⟩
  have hF : (zf.Close).2.File = none := by rw [Close_file]
  have hfix : ∀ n : Nat, (fun z : ZimFile => (z.Close).2)^[n] (zf.Close).2 = (zf.Close).2 := by
    intro n
    induction n with
    | zero => rfl
    | succ k ih =>
      rw [Function.iterate_succ_apply', ih, Close_nil _ hF]
  intro n
  rw [hfix n, Close_nil _ hF]

/-! ## Path lemmas -/

namespace filepath

/-! ### Splitting at the separator -/

theorem splitOn_append_sep (a b : List Char) :
    (a ++ '/' :: b).splitOn '/' = a.splitOn '/' ++ b.splitOn '/' := by
  induction a with
  | nil => simp [List.splitOn]
  | cons x a ih =>
    simp only [List.splitOn] at ih ⊢
    rw [List.cons_append, List.splitOnP_cons, List.splitOnP_cons, ih]
    by_cases hx : (x == '/') = true
    · simp [hx]
    · simp only [hx, if_false]
      cases hs : List.splitOnP (fun c => c == '/') a with
      | nil => exact absurd hs (List.splitOnP_ne_nil _ _)
      | cons h t => rfl

theorem splitOn_no_sep (l : List Char) : ∀ s ∈ l.splitOn '/', '/' ∉ s := by
  induction l with
  | nil => simp [List.splitOn]
  | cons x l ih =>
    simp only [List.splitOn] at ih ⊢
    rw [List.splitOnP_cons]
    by_cases hx : (x == '/') = true
    · simp only [hx, if_true]
      intro s hs
      rcases List.mem_cons.mp hs with rfl | hs
      · simp
      · exact ih s hs
    · simp only [hx, if_false]
      cases hsplit : List.splitOnP (fun c => c == '/') l with
      | nil => exact absurd hsplit (List.splitOnP_ne_nil _ _)
      | cons h t =>
        rw [hsplit] at ih
        intro s hs
        rw [List.modifyHead_cons] at hs
        rcases List.mem_cons.mp hs with rfl | hs
        · have hh := ih h (List.mem_cons_self _ _)
          have hx' : x ≠ '/' := by simpa using hx
          simp [hh, hx'.symm]
        · exact ih s (List.mem_cons_of_mem _ hs)

/-! ### Cleaned form -/

theorem okSeg_dotdot : okSeg dotdot := by
  refine ⟨by decide, by decide, by decide⟩

theorem normStack_nil (rooted : Bool) : NormStack rooted [] :=
  ⟨by simp, 0, [], by simp, by simp, fun _ => rfl⟩

theorem normStack_tail (rooted : Bool) (s : List Char) (S : List (List Char))
    (h : NormStack rooted (s :: S)) : NormStack rooted S := by
  obtain ⟨hok, k, rest, hS, hrest, hk⟩ := h
  refine ⟨fun t ht => hok t (List.mem_cons_of_mem _ ht), ?_⟩
  cases rest with
  | nil =>
    cases k with
    | zero => simp at hS
    | succ j =>
      have hj : rooted = true → False := fun hr => by have := hk hr; omega
      simp only [List.nil_append, List.replicate_succ, List.cons.injEq] at hS
      exact ⟨j, [], by simp [hS.2], by simp, fun hr => (hj hr).elim⟩
  | cons r rest' =>
    simp only [List.cons_append, List.cons.injEq] at hS
    exact ⟨k, rest', hS.2, fun hm => hrest (List.mem_cons_of_mem _ hm), hk⟩

theorem cleanStep_norm (rooted : Bool) (S : List (List Char)) (seg : List Char)
    (hseg : '/' ∉ seg) (h : NormStack rooted S) : NormStack rooted (cleanStep rooted S seg) := by
  unfold cleanStep
  by_cases h1 : seg = [] ∨ seg = ['.']
  · simpa [h1] using h
  · rw [if_neg h1]
    by_cases h2 : seg = dotdot
    · rw [if_pos h2]
      cases S with
      | nil =>
        cases rooted with
        | true => simpa using normStack_nil true
        | false =>
          subst h2
          exact ⟨by simpa using okSeg_dotdot, 1, [], by simp, by simp, by simp⟩
      | cons top below =>
        by_cases h3 : top = dotdot
        · simp only [h3, if_true]
          obtain ⟨hok, k, rest, hS, hrest, hk⟩ := h
          subst h2
          refine ⟨?_, ?_⟩
          · intro s hs
            rcases List.mem_cons.mp hs with rfl | hs
            · exact okSeg_dotdot
            · exact hok s (by simpa [h3] using hs)
          · cases rest with
            | nil =>
              refine ⟨k + 1, [], ?_, by simp, ?_⟩
              · simp only [List.nil_append] at hS
                rw [← h3, hS, List.nil_append, List.replicate_succ]
                congr 1
                rw [h3]
              · intro hr
                have hk0 := hk hr
                subst hk0
                simp at hS
            | cons r rest' =>
              simp only [List.cons_append, List.cons.injEq] at hS
              exact absurd (hS.1 ▸ h3 ▸ List.mem_cons_self _ _ : dotdot ∈ r :: rest') hrest
        · simp only [h3, if_false]
          exact normStack_tail rooted top below h
    · rw [if_neg h2]
      obtain ⟨hok, k, rest, hS, hrest, hk⟩ := h
      have hne : seg ≠ [] := fun hh => h1 (Or.inl hh)
      have hnd : seg ≠ ['.'] := fun hh => h1 (Or.inr hh)
      refine ⟨?_, k, seg :: rest, by simp [hS], ?_, hk⟩
      · intro s hs
        rcases List.mem_cons.mp hs with rfl | hs
        · exact ⟨hne, hnd, hseg⟩
        · exact hok s hs
      · intro hm
        rcases List.mem_cons.mp hm with hm | hm
        · exact h2 hm.symm
        · exact hrest hm

theorem foldl_norm (rooted : Bool) (segs : List (List Char)) :
    ∀ S, (∀ s ∈ segs, '/' ∉ s) → NormStack rooted S →
      NormStack rooted (segs.foldl (cleanStep rooted) S) := by
  induction segs with
  | nil => intro S _ h; exact h
  | cons seg rest ih =>
    intro S hs h
    rw [List.foldl_cons]
    exact ih _ (fun s hm => hs s (List.mem_cons_of_mem _ hm))
      (cleanStep_norm rooted S seg (hs seg (List.mem_cons_self _ _)) h)

theorem normStack_segsOf (p : List Char) : NormStack (isRooted p) (segsOf p).reverse := by
  unfold segsOf cleanSegs
  rw [List.reverse_reverse]
  exact foldl_norm _ _ [] (splitOn_no_sep p) (normStack_nil _)

theorem foldl_plain (rooted : Bool) (l : List (List Char))
    (hl : ∀ s ∈ l, s ≠ [] ∧ s ≠ ['.'] ∧ s ≠ dotdot) :
    ∀ S, l.foldl (cleanStep rooted) S = l.reverse ++ S := by
  induction l with
  | nil => intro S; rfl
  | cons s rest ih =>
    intro S
    obtain ⟨h1, h2, h3⟩ := hl s (List.mem_cons_self _ _)
    rw [List.foldl_cons, ih (fun t ht => hl t (List.mem_cons_of_mem _ ht))]
    simp [cleanStep, h1, h2, h3]

theorem foldl_dots (k : Nat) : ∀ j,
    (List.replicate k dotdot).foldl (cleanStep false) (List.replicate j dotdot) =
      List.replicate (j + k) dotdot := by
  induction k with
  | zero => intro j; rfl
  | succ k ih =>
    intro j
    have hstep : cleanStep false (List.replicate j dotdot) dotdot =
        List.replicate (j + 1) dotdot := by
      cases j with
      | zero => rfl
      | succ i =>
        rw [List.replicate_succ (n := i + 1)]
        simp [cleanStep, List.replicate_succ, dotdot]
    rw [List.replicate_succ, List.foldl_cons, hstep, ih (j + 1)]
    congr 1
    omega

theorem foldl_of_norm (rooted : Bool) (S : List (List Char)) (h : NormStack rooted S) :
    S.reverse.foldl (cleanStep rooted) [] = S := by
  obtain ⟨hok, k, rest, hS, hrest, hk⟩ := h
  have hplain : ∀ s ∈ rest.reverse, s ≠ [] ∧ s ≠ ['.'] ∧ s ≠ dotdot := by
    intro s hs
    have hs' : s ∈ rest := List.mem_reverse.mp hs
    have := hok s (by rw [hS]; exact List.mem_append_left _ hs')
    exact ⟨this.1, this.2.1, fun hd => hrest (hd ▸ hs')⟩
  rw [hS, List.reverse_append, List.reverse_replicate, List.foldl_append]
  cases rooted with
  | true =>
    have hk0 := hk rfl
    subst hk0
    simp [foldl_plain true _ hplain]
  | false =>
    have hd := foldl_dots k 0
    simp only [List.replicate_zero, Nat.zero_add] at hd
    rw [hd, foldl_plain false _ hplain, List.reverse_reverse]

/-! ### Cleaning a cleaned path -/

theorem cleanSegs_nil_cons (rooted : Bool) (segs : List (List Char)) :
    cleanSegs rooted ([] :: segs) = cleanSegs rooted segs := by
  simp [cleanSegs, cleanStep]

theorem cleanSegs_of_norm (rooted : Bool) (segs : List (List Char))
    (h : NormStack rooted segs.reverse) : cleanSegs rooted segs = segs := by
  have := foldl_of_norm rooted segs.reverse h
  rw [List.reverse_reverse] at this
  rw [cleanSegs, this, List.reverse_reverse]

theorem no_sep_of_norm (rooted : Bool) (segs : List (List Char))
    (h : NormStack rooted segs.reverse) : ∀ l ∈ segs, '/' ∉ l :=
  fun l hl => (h.1 l (List.mem_reverse.mpr hl)).2.2

theorem intercalate_cons_cons (s t : List Char) (rest : List (List Char)) :
    List.intercalate ['/'] (s :: t :: rest) = s ++ '/' :: List.intercalate ['/'] (t :: rest) := by
  simp [List.intercalate, List.intersperse]

theorem intercalate_single (s : List Char) : List.intercalate ['/'] [s] = s := by
  simp [List.intercalate, List.intersperse]

theorem isRooted_intercalate (segs : List (List Char)) (hne : segs ≠ [])
    (hok : ∀ s ∈ segs, okSeg s) : isRooted (List.intercalate ['/'] segs) = false := by
  cases segs with
  | nil => exact absurd rfl hne
  | cons s rest =>
    obtain ⟨h1, -, h3⟩ := hok s (List.mem_cons_self _ _)
    cases s with
    | nil => exact absurd rfl h1
    | cons c cs =>
      have hc : c ≠ '/' := fun hc => h3 (hc ▸ List.mem_cons_self _ _)
      cases rest with
      | nil => simp [intercalate_single, isRooted, hc]
      | cons t rest' => simp [intercalate_cons_cons, isRooted, hc]

theorem segsOf_render (rooted : Bool) (segs : List (List Char))
    (h : NormStack rooted segs.reverse) :
    isRooted (render rooted segs) = rooted ∧
      cleanSegs rooted ((render rooted segs).splitOn '/') = segs := by
  have hsep := no_sep_of_norm rooted segs h
  have hok : ∀ s ∈ segs, okSeg s := fun s hs => h.1 s (List.mem_reverse.mpr hs)
  cases rooted with
  | true =>
    refine ⟨by simp [render, isRooted], ?_⟩
    have hsplit := splitOn_append_sep [] (List.intercalate ['/'] segs)
    simp only [List.nil_append, List.splitOn_nil, List.singleton_append] at hsplit
    simp only [render, if_true]
    rw [hsplit, cleanSegs_nil_cons]
    by_cases hne : segs = []
    · subst hne
      simp [List.intercalate, cleanSegs, cleanStep]
    · rw [List.splitOn_intercalate _ _ hsep hne]
      exact cleanSegs_of_norm true segs h
  | false =>
    by_cases hne : segs = []
    · subst hne
      refine ⟨by decide, by decide⟩
    · simp only [render, hne, if_false, Bool.false_eq_true]
      refine ⟨isRooted_intercalate segs hne hok, ?_⟩
      rw [List.splitOn_intercalate _ _ hsep hne]
      exact cleanSegs_of_norm false segs h

/-- Cleaning is idempotent on the elements: the cleaned text of a path has
the rootedness and the cleaned elements of the path. -/
theorem segsOf_Clean (path : String) :
    isRooted (Clean path).data = isRooted path.data ∧
      segsOf (Clean path).data = segsOf path.data := by
  have h := segsOf_render (isRooted path.data) (segsOf path.data) (normStack_segsOf path.data)
  unfold Clean
  simp only
  refine ⟨h.1, ?_⟩
  rw [segsOf, h.1]
  exact h.2

/-! ### Joining a relative name to a root -/

theorem cleanStep_bottom (S : List (List Char)) (seg : List Char)
    (h : S.getLast? = some dotdot) : (cleanStep false S seg).getLast? = some dotdot := by
  unfold cleanStep
  by_cases h1 : seg = [] ∨ seg = ['.']
  · simpa [h1] using h
  · rw [if_neg h1]
    cases S with
    | nil => simp at h
    | cons top below =>
      by_cases h2 : seg = dotdot
      · rw [if_pos h2]
        by_cases h3 : top = dotdot
        · simp only [h3, if_true]
          rw [List.getLast?_cons_cons]
          rw [h3] at h; exact h
        · simp only [h3, if_false]
          cases below with
          | nil => simp at h; exact absurd h h3
          | cons b bs => rw [List.getLast?_cons_cons] at h; exact h
      · rw [if_neg h2, List.getLast?_cons_cons]
        exact h

theorem foldl_bottom (segs : List (List Char)) :
    ∀ S, S.getLast? = some dotdot →
      (segs.foldl (cleanStep false) S).getLast? = some dotdot := by
  induction segs with
  | nil => intro S h; exact h
  | cons seg rest ih =>
    intro S h
    rw [List.foldl_cons]
    exact ih _ (cleanStep_bottom S seg h)

theorem foldl_relative (rooted : Bool) (R0 : List (List Char)) (segs : List (List Char)) :
    ∀ S, dotdot ∉ S → dotdot ∉ segs.foldl (cleanStep false) S →
      segs.foldl (cleanStep rooted) (S ++ R0) = segs.foldl (cleanStep false) S ++ R0 := by
  induction segs with
  | nil => intro S _ _; rfl
  | cons seg rest ih =>
    intro S hS hfin
    rw [List.foldl_cons] at hfin ⊢
    rw [List.foldl_cons]
    by_cases h1 : seg = [] ∨ seg = ['.']
    · have e1 : ∀ r T, cleanStep r T seg = T := by intro r T; simp [cleanStep, h1]
      rw [e1] at hfin ⊢
      rw [e1]
      exact ih S hS hfin
    · by_cases h2 : seg = dotdot
      · subst h2
        cases S with
        | nil =>
          exfalso
          have hb := foldl_bottom rest (cleanStep false [] dotdot) (by decide)
          exact hfin (List.mem_of_getLast?_eq_some hb)
        | cons top below =>
          have h3 : top ≠ dotdot := fun h => hS (h ▸ List.mem_cons_self _ _)
          have e1 : cleanStep false (top :: below) dotdot = below := by
            unfold cleanStep
            rw [if_neg h1, if_pos rfl]
            simp [h3]
          have e2 : cleanStep rooted (top :: below ++ R0) dotdot = below ++ R0 := by
            unfold cleanStep
            rw [if_neg h1, if_pos rfl]
            simp [h3]
          rw [e1] at hfin ⊢
          rw [e2]
          exact ih below (fun hm => hS (List.mem_cons_of_mem _ hm)) hfin
      · have e1 : ∀ r T, cleanStep r T seg = seg :: T := by
          intro r T; simp [cleanStep, h1, h2]
        rw [e1] at hfin ⊢
        rw [e1]
        have := ih (seg :: S) (by
          intro hm
          rcases List.mem_cons.mp hm with hm | hm
          · exact h2 hm.symm
          · exact hS hm) hfin
        simpa using this

theorem isRooted_append (d rest : List Char) (hd : d ≠ []) :
    isRooted (d ++ rest) = isRooted d := by
  cases d with
  | nil => exact absurd rfl hd
  | cons c cs => rfl

theorem segsOf_append_sep (d n : List Char) (hd : d ≠ [])
    (hsafe : dotdot ∉ cleanSegs false (n.splitOn '/')) :
    segsOf (d ++ '/' :: n) = segsOf d ++ cleanSegs false (n.splitOn '/') := by
  have hsafe' : dotdot ∉ (n.splitOn '/').foldl (cleanStep false) [] := by
    intro hm; exact hsafe (List.mem_reverse.mpr hm)
  have h := foldl_relative (isRooted d) ((d.splitOn '/').foldl (cleanStep (isRooted d)) [])
    (n.splitOn '/') [] (by simp) hsafe'
  simp only [List.nil_append] at h
  rw [segsOf, isRooted_append d _ hd, splitOn_append_sep, cleanSegs, List.foldl_append, h,
    List.reverse_append]
  rfl

/-! ### The directory of a cleaned path -/

theorem dropWhile_append_all (p : Char → Bool) (xs ys : List Char)
    (h : ∀ x ∈ xs, p x = true) : (xs ++ ys).dropWhile p = ys.dropWhile p := by
  induction xs with
  | nil => rfl
  | cons x rest ih =>
    rw [List.cons_append, List.dropWhile_cons, if_pos (h x (List.mem_cons_self _ _))]
    exact ih (fun y hy => h y (List.mem_cons_of_mem _ hy))

theorem dirPrefix_no_sep (b : List Char) (h : '/' ∉ b) : dirPrefix b = [] := by
  unfold dirPrefix
  have := dropWhile_append_all (fun c => decide (c ≠ '/')) b.reverse []
    (by
      intro x hx
      have hx' : x ≠ '/' := fun hh => h (hh ▸ List.mem_reverse.mp hx)
      simpa using hx')
  rw [List.append_nil] at this
  rw [this]
  rfl

theorem dirPrefix_append (a b : List Char) (h : '/' ∉ b) :
    dirPrefix (a ++ '/' :: b) = a ++ ['/'] := by
  unfold dirPrefix
  have hrev : (a ++ '/' :: b).reverse = b.reverse ++ '/' :: a.reverse := by simp
  rw [hrev, dropWhile_append_all (fun c => decide (c ≠ '/')) b.reverse _
    (by
      intro x hx
      have hx' : x ≠ '/' := fun hh => h (hh ▸ List.mem_reverse.mp hx)
      simpa using hx')]
  simp [List.dropWhile_cons]

theorem intercalate_snoc (init : List (List Char)) (last : List Char) (hne : init ≠ []) :
    List.intercalate ['/'] (init ++ [last]) =
      List.intercalate ['/'] init ++ '/' :: last := by
  induction init with
  | nil => exact absurd rfl hne
  | cons s rest ih =>
    cases rest with
    | nil => simp [intercalate_cons_cons, intercalate_single]
    | cons t rest' =>
      have := ih (by simp)
      rw [List.cons_append, List.cons_append, intercalate_cons_cons, intercalate_cons_cons]
      rw [List.cons_append] at this
      rw [this]
      simp

theorem render_snoc (rooted : Bool) (init : List (List Char)) (last : List Char)
    (hne : init ≠ []) :
    render rooted (init ++ [last]) = render rooted init ++ '/' :: last := by
  cases rooted with
  | true => simp [render, intercalate_snoc init last hne]
  | false => simp [render, hne, intercalate_snoc init last hne]

theorem cleanSegs_snoc_nil (rooted : Bool) (segs : List (List Char)) :
    cleanSegs rooted (segs ++ [[]]) = cleanSegs rooted segs := by
  simp [cleanSegs, List.foldl_append, cleanStep]

theorem segsOf_dirPrefix_render (rooted : Bool) (segs : List (List Char))
    (h : NormStack rooted segs.reverse) :
    isRooted (dirPrefix (render rooted segs)) = rooted ∧
      segsOf (dirPrefix (render rooted segs)) = segs.dropLast := by
  rcases List.eq_nil_or_concat segs with hnil | ⟨init, last, hsnoc⟩
  · subst hnil
    cases rooted with
    | true => exact ⟨by decide, by decide⟩
    | false => exact ⟨by decide, by decide⟩
  · rw [List.concat_eq_append] at hsnoc
    subst hsnoc
    have hlast : '/' ∉ last :=
      no_sep_of_norm rooted _ h last (List.mem_append_right _ (List.mem_singleton_self _))
    have hinit : NormStack rooted init.reverse := by
      rw [List.reverse_append] at h
      exact normStack_tail rooted last init.reverse h
    rw [List.dropLast_concat]
    by_cases hne : init = []
    · subst hne
      cases rooted with
      | true =>
        have hp : dirPrefix (render true ([] ++ [last])) = ['/'] := by
          have := dirPrefix_append [] last hlast
          simpa [render, intercalate_single] using this
        rw [hp]
        exact ⟨by decide, by decide⟩
      | false =>
        have hp : dirPrefix (render false ([] ++ [last])) = [] := by
          have := dirPrefix_no_sep last hlast
          simpa [render, intercalate_single] using this
        rw [hp]
        exact ⟨by decide, by decide⟩
    · have hr := segsOf_render rooted init hinit
      have hX : render rooted init ≠ [] := by
        intro hX
        rw [hX] at hr
        have : cleanSegs rooted (([] : List Char).splitOn '/') = [] := by
          simp [cleanSegs, cleanStep]
        exact hne (hr.2.symm.trans this)
      rw [render_snoc rooted init last hne, dirPrefix_append _ _ hlast]
      have hroot : isRooted (render rooted init ++ ['/']) = rooted := by
        rw [isRooted_append _ _ hX]; exact hr.1
      refine ⟨hroot, ?_⟩
      rw [segsOf, hroot, splitOn_append_sep, List.splitOn_nil, cleanSegs_snoc_nil]
      exact hr.2

theorem segsOf_Dir_Clean (path : String) :
    isRooted (Dir (Clean path)).data = isRooted path.data ∧
      segsOf (Dir (Clean path)).data = (segsOf path.data).dropLast := by
  have hc := segsOf_Clean (String.mk (dirPrefix (Clean path).data))
  have hd := segsOf_dirPrefix_render (isRooted path.data) (segsOf path.data)
    (normStack_segsOf path.data)
  unfold Dir
  rw [hc.1, hc.2]
  exact hd

/-! ### Paths inside the root -/

theorem data_ne_nil (s : String) (h : s ≠ "") : s.data ≠ [] := by
  intro hd
  apply h
  cases s
  simp_all

theorem Join_eq_Clean (root name : String) (hroot : root ≠ "") :
    Join root name = Clean (root ++ "/" ++ name) := by
  simp [Join, hroot]

theorem segsOf_joined (root name : String) (hroot : root ≠ "")
    (hsafe : dotdot ∉ cleanSegs false (name.data.splitOn '/')) :
    isRooted (root ++ "/" ++ name).data = isRooted root.data ∧
      segsOf (root ++ "/" ++ name).data =
        segsOf root.data ++ cleanSegs false (name.data.splitOn '/') := by
  have hdata : (root ++ "/" ++ name).data = root.data ++ '/' :: name.data := by
    simp [String.data_append]
  rw [hdata]
  exact ⟨isRooted_append _ _ (data_ne_nil root hroot),
    segsOf_append_sep _ _ (data_ne_nil root hroot) hsafe⟩

theorem inside_self (root : String) : inside root root :=
  ⟨rfl, List.prefix_refl _, by simp⟩

theorem inside_Join (root name : String) (hroot : root ≠ "")
    (hsafe : dotdot ∉ cleanSegs false (name.data.splitOn '/')) :
    inside root (Join root name) := by
  have hj := segsOf_joined root name hroot hsafe
  have hc := segsOf_Clean (root ++ "/" ++ name)
  rw [Join_eq_Clean root name hroot]
  refine ⟨?_, ?_, ?_⟩
  · rw [hc.1, hj.1]
  · rw [hc.2, hj.2]; exact List.prefix_append _ _
  · rw [hc.2, hj.2, List.drop_left]; exact hsafe

theorem inside_Dir_Join (root name : String) (hroot : root ≠ "")
    (hsafe : dotdot ∉ cleanSegs false (name.data.splitOn '/'))
    (hne : cleanSegs false (name.data.splitOn '/') ≠ []) :
    inside root (Dir (Join root name)) := by
  have hj := segsOf_joined root name hroot hsafe
  have hd := segsOf_Dir_Clean (root ++ "/" ++ name)
  rw [Join_eq_Clean root name hroot]
  refine ⟨?_, ?_, ?_⟩
  · rw [hd.1, hj.1]
  · rw [hd.2, hj.2, List.dropLast_append_of_ne_nil _ hne]; exact List.prefix_append _ _
  · rw [hd.2, hj.2, List.dropLast_append_of_ne_nil _ hne, List.drop_left]
    exact fun hm => hsafe (List.mem_of_mem_dropLast hm)

/-! ### Cleaned texts -/

theorem render_ne_nil (rooted : Bool) (segs : List (List Char))
    (h : NormStack rooted segs.reverse) : render rooted segs ≠ [] := by
  cases rooted with
  | true => simp [render]
  | false =>
    by_cases hne : segs = []
    · subst hne; simp [render]
    · intro hX
      have hr := (segsOf_render false segs h).2
      rw [hX] at hr
      have : cleanSegs false (([] : List Char).splitOn '/') = [] := by
        simp [cleanSegs, cleanStep]
      exact hne (hr.symm.trans this)

theorem Clean_ne_empty (path : String) : Clean path ≠ "" := by
  intro h
  have hd := congrArg String.data h
  unfold Clean at hd
  exact render_ne_nil _ _ (normStack_segsOf path.data) hd

theorem Clean_idem (path : String) : Clean (Clean path) = Clean path := by
  have h := segsOf_Clean path
  show String.mk (render (isRooted (Clean path).data) (segsOf (Clean path).data)) = Clean path
  rw [h.1, h.2]
  rfl

theorem Clean_Join (root name : String) (hroot : root ≠ "") :
    Clean (Join root name) = Join root name := by
  rw [Join_eq_Clean root name hroot, Clean_idem]

theorem Join_ne_empty (root name : String) (hroot : root ≠ "") : Join root name ≠ "" := by
  rw [Join_eq_Clean root name hroot]
  exact Clean_ne_empty _

theorem Clean_Dir (path : String) : Clean (Dir path) = Dir path :=
  Clean_idem _

theorem Dir_ne_empty (path : String) : Dir path ≠ "" :=
  Clean_ne_empty _

theorem mem_ancestors_Clean (path : String) : Clean path ∈ ancestors path := by
  unfold ancestors Clean
  exact List.mem_map.mpr ⟨segsOf path.data, (List.mem_inits _ _).mpr (List.prefix_refl _), rfl⟩

theorem mem_ancestors_Dir (path : String) : Dir path ∈ ancestors (Dir path) := by
  have h := mem_ancestors_Clean (Dir path)
  rwa [Clean_Dir] at h

end filepath

/-! ## Extraction: the calls issued -/

theorem MkdirAll_trace (w : World) (path : String) :
    (w.MkdirAll path).2.trace = w.trace ++ [FsCall.mkdirAll path] := by
  unfold World.MkdirAll
  repeat' split
  all_goals rfl

theorem Create_trace (w : World) (path : String) :
    (w.Create path).2.trace = w.trace ++ [FsCall.create path] := by
  unfold World.Create
  repeat' split
  all_goals rfl

theorem Copy_trace (w : World) (path : String) (src : List Byte) :
    (w.Copy path src).2.trace = w.trace ++ [FsCall.write path] := by
  unfold World.Copy
  cases w.fault (FsCall.write path) <;> rfl

theorem extractLoop_trace (destPath : String) (entries : List ZipEntry) :
    ∀ (w : World) (call : FsCall), call ∈ (extractLoop destPath entries w).2.trace →
      call ∈ w.trace ∨ ∃ e ∈ entries, call ∈ entryCalls destPath e := by
  induction entries with
  | nil => intro w call h; exact Or.inl h
  | cons e rest ih =>
    intro w call h
    have hm := MkdirAll_trace w (filepath.Dir (filepath.Join destPath e.Name))
    unfold extractLoop at h
    simp only at h
    rcases hM : w.MkdirAll (filepath.Dir (filepath.Join destPath e.Name)) with ⟨r1, w1⟩
    rw [hM] at h hm
    simp only at hm
    have step1 : ∀ c, c ∈ w1.trace → c ∈ w.trace ∨ ∃ e' ∈ e :: rest, c ∈ entryCalls destPath e' := by
      intro c hc
      rw [hm] at hc
      rcases List.mem_append.mp hc with hc | hc
      · exact Or.inl hc
      · exact Or.inr ⟨e, List.mem_cons_self _ _, by
          simp only [List.mem_singleton] at hc; simp [entryCalls, hc]⟩
    cases r1 with
    | some err => exact step1 call h
    | none =>
      simp only at h
      cases hO : e.openErr with
      | some err => rw [hO] at h; exact step1 call h
      | none =>
        rw [hO] at h
        simp only at h
        have hc := Create_trace w1 (filepath.Join destPath e.Name)
        rcases hC : w1.Create (filepath.Join destPath e.Name) with ⟨r2, w2⟩
        rw [hC] at h hc
        simp only at hc
        have step2 : ∀ c, c ∈ w2.trace →
            c ∈ w.trace ∨ ∃ e' ∈ e :: rest, c ∈ entryCalls destPath e' := by
          intro c hc2
          rw [hc] at hc2
          rcases List.mem_append.mp hc2 with hc2 | hc2
          · exact step1 c hc2
          · exact Or.inr ⟨e, List.mem_cons_self _ _, by
              simp only [List.mem_singleton] at hc2; simp [entryCalls, hc2]⟩
        cases r2 with
        | some err => exact step2 call h
        | none =>
          simp only at h
          have hw := Copy_trace w2 (filepath.Join destPath e.Name) e.body
          rcases hW : w2.Copy (filepath.Join destPath e.Name) e.body with ⟨r3, w3⟩
          rw [hW] at h hw
          simp only at hw
          have step3 : ∀ c, c ∈ w3.trace →
              c ∈ w.trace ∨ ∃ e' ∈ e :: rest, c ∈ entryCalls destPath e' := by
            intro c hc3
            rw [hw] at hc3
            rcases List.mem_append.mp hc3 with hc3 | hc3
            · exact step2 c hc3
            · exact Or.inr ⟨e, List.mem_cons_self _ _, by
                simp only [List.mem_singleton] at hc3; simp [entryCalls, hc3]⟩
          cases r3 with
          | some err => exact step3 call h
          | none =>
            simp only at h
            rcases ih w3 call h with h3 | ⟨e', he', hcall⟩
            · exact step3 call h3
            · exact Or.inr ⟨e', List.mem_cons_of_mem _ he', hcall⟩

theorem Extract_trace (zf : ZimFile) (destPath : String) (w : World)
    (entries : List ZipEntry) (hlist : w.container zf.FilePath = Except.ok entries)
    (call : FsCall) (h : call ∈ (zf.Extract destPath w).2.trace) :
    call ∈ w.trace ∨ call = FsCall.mkdirAll destPath ∨
      ∃ e ∈ entries, call ∈ entryCalls destPath e := by
  unfold ZimFile.Extract at h
  rw [hlist] at h
  simp only at h
  have hm := MkdirAll_trace w destPath
  rcases hM : w.MkdirAll destPath with ⟨r1, w1⟩
  rw [hM] at h hm
  simp only at hm
  have step1 : ∀ c, c ∈ w1.trace → c ∈ w.trace ∨ c = FsCall.mkdirAll destPath := by
    intro c hc
    rw [hm] at hc
    rcases List.mem_append.mp hc with hc | hc
    · exact Or.inl hc
    · exact Or.inr (by simpa using hc)
  cases r1 with
  | some err =>
    rcases step1 call h with h1 | h1
    · exact Or.inl h1
    · exact Or.inr (Or.inl h1)
  | none =>
    simp only at h
    rcases extractLoop_trace destPath entries w1 call h with h1 | h1
    · rcases step1 call h1 with h2 | h2
      · exact Or.inl h2
      · exact Or.inr (Or.inl h2)
    · exact Or.inr (Or.inr h1)

/-! ## Extraction: the files written -/

theorem setFile_setFile (files : String → Option (List Byte)) (path : String)
    (a b : List Byte) : setFile (setFile files path a) path b = setFile files path b := by
  funext q
  unfold setFile
  split <;> rfl

theorem extractedFiles_append (destPath : String) (pre post : List ZipEntry) :
    ∀ files, extractedFiles destPath (pre ++ post) files =
      extractedFiles destPath post (extractedFiles destPath pre files) := by
  induction pre with
  | nil => intro files; rfl
  | cons e rest ih =>
    intro files
    rw [List.cons_append, extractedFiles, extractedFiles, ih]

theorem extractedFiles_other (destPath : String) (path : String) (post : List ZipEntry)
    (h : ∀ e ∈ post, filepath.Join destPath e.Name ≠ path) :
    ∀ files, extractedFiles destPath post files path = files path := by
  induction post with
  | nil => intro files; rfl
  | cons e rest ih =>
    intro files
    have hne : path ≠ filepath.Join destPath e.Name :=
      fun hp => h e (List.mem_cons_self _ _) hp.symm
    rw [extractedFiles, ih (fun e' he' => h e' (List.mem_cons_of_mem _ he'))]
    simp [setFile, hne]

theorem extractedFiles_last (destPath : String) (pre post : List ZipEntry) (e : ZipEntry)
    (files : String → Option (List Byte))
    (h : ∀ e' ∈ post, filepath.Join destPath e'.Name ≠ filepath.Join destPath e.Name) :
    extractedFiles destPath (pre ++ e :: post) files (filepath.Join destPath e.Name) =
      some e.body := by
  rw [extractedFiles_append, extractedFiles, extractedFiles_other destPath _ post h]
  simp [setFile]

theorem extractedFiles_isSome (destPath : String) (entries : List ZipEntry) :
    ∀ (files : String → Option (List Byte)) (path : String),
      ((files path).isSome = true ∨ ∃ e ∈ entries, filepath.Join destPath e.Name = path) →
      (extractedFiles destPath entries files path).isSome = true := by
  induction entries with
  | nil =>
    intro files path h
    rcases h with h | ⟨e, he, -⟩
    · exact h
    · cases he
  | cons e rest ih =>
    intro files path h
    rw [extractedFiles]
    apply ih
    by_cases hp : path = filepath.Join destPath e.Name
    · left; simp [setFile, hp]
    · rcases h with h | ⟨e', he', hj⟩
      · left; simpa [setFile, hp] using h
      · rcases List.mem_cons.mp he' with rfl | hmem
        · exact absurd hj.symm hp
        · right; exact ⟨e', hmem, hj⟩

theorem MkdirAll_ok (w : World) (path : String) (hne : path ≠ "")
    (hfault : w.fault (FsCall.mkdirAll path) = none)
    (hfree : ∀ d ∈ filepath.ancestors path, w.files d = none) :
    w.MkdirAll path =
      (none, { w with
        trace := w.trace ++ [FsCall.mkdirAll path],
        dirs := fun q => (filepath.ancestors path).contains q || w.dirs q }) := by
  have hany : (filepath.ancestors path).any (fun d => (w.files d).isSome) = false := by
    rw [List.any_eq_false]
    intro d hd
    simp [hfree d hd]
  simp [World.MkdirAll, hne, hfault, hany]

theorem Create_ok (w : World) (path : String) (hne : path ≠ "")
    (hfault : w.fault (FsCall.create path) = none)
    (hclean : filepath.Clean path = path) (hnd : w.dirs path = false)
    (hpf : w.files (filepath.Dir path) = none) (hpd : w.dirs (filepath.Dir path) = true) :
    w.Create path =
      (none, { w with
        trace := w.trace ++ [FsCall.create path],
        files := setFile w.files path [] }) := by
  simp [World.Create, hne, hfault, hclean, hnd, hpf, hpd]

theorem Copy_ok (w : World) (path : String) (src : List Byte)
    (hfault : w.fault (FsCall.write path) = none)
    (hclean : filepath.Clean path = path) :
    w.Copy path src =
      (none, { w with
        trace := w.trace ++ [FsCall.write path],
        files := setFile w.files path src }) := by
  simp [World.Copy, hfault, hclean]

theorem extractLoop_step (destPath : String) (hroot : destPath ≠ "") (e : ZipEntry)
    (rest : List ZipEntry) (w : World) (hfault : ∀ c, w.fault c = none)
    (hopen : e.openErr = none)
    (hfree : ∀ d ∈ filepath.ancestors (filepath.Dir (filepath.Join destPath e.Name)),
      w.files d = none)
    (hnd : w.dirs (filepath.Join destPath e.Name) = false)
    (hsep : filepath.Join destPath e.Name ∉
      filepath.ancestors (filepath.Dir (filepath.Join destPath e.Name))) :
    extractLoop destPath (e :: rest) w = extractLoop destPath rest (afterEntry destPath w e) := by
  have hM := MkdirAll_ok w (filepath.Dir (filepath.Join destPath e.Name))
    (filepath.Dir_ne_empty _) (hfault _) hfree
  have hsep' : (filepath.ancestors (filepath.Dir (filepath.Join destPath e.Name))).contains
      (filepath.Join destPath e.Name) = false := by
    simpa using hsep
  have hself : (filepath.ancestors (filepath.Dir (filepath.Join destPath e.Name))).contains
      (filepath.Dir (filepath.Join destPath e.Name)) = true := by
    simpa using filepath.mem_ancestors_Dir (filepath.Join destPath e.Name)
  have hC := Create_ok
    { w with
      trace := w.trace ++ [FsCall.mkdirAll (filepath.Dir (filepath.Join destPath e.Name))],
      dirs := fun q =>
        (filepath.ancestors (filepath.Dir (filepath.Join destPath e.Name))).contains q ||
          w.dirs q }
    (filepath.Join destPath e.Name) (filepath.Join_ne_empty destPath e.Name hroot)
    (hfault _) (filepath.Clean_Join destPath e.Name hroot)
    (by simp only [hsep', hnd, Bool.or_self])
    (hfree _ (filepath.mem_ancestors_Dir _))
    (by simp only [hself, Bool.true_or])
  have hW := Copy_ok
    { w with
      trace := w.trace ++ [FsCall.mkdirAll (filepath.Dir (filepath.Join destPath e.Name))] ++
        [FsCall.create (filepath.Join destPath e.Name)],
      dirs := fun q =>
        (filepath.ancestors (filepath.Dir (filepath.Join destPath e.Name))).contains q ||
          w.dirs q,
      files := setFile w.files (filepath.Join destPath e.Name) [] }
    (filepath.Join destPath e.Name) e.body (hfault _) (filepath.Clean_Join destPath e.Name hroot)
  rw [extractLoop]
  simp only [hM, hopen, hC, hW]
  congr 1
  simp [afterEntry, entryCalls, setFile_setFile]

theorem extractLoop_ok (destPath : String) (hroot : destPath ≠ "")
    (entries : List ZipEntry) :
    ∀ (w : World), (∀ c, w.fault c = none) → (∀ e ∈ entries, e.openErr = none) →
      (∀ e ∈ entries,
        ∀ d ∈ filepath.ancestors (filepath.Dir (filepath.Join destPath e.Name)),
          w.files d = none) →
      (∀ e ∈ entries, w.dirs (filepath.Join destPath e.Name) = false) →
      (∀ e ∈ entries, ∀ e' ∈ entries, filepath.Join destPath e.Name ∉
        filepath.ancestors (filepath.Dir (filepath.Join destPath e'.Name))) →
      (extractLoop destPath entries w).1 = none ∧
      (extractLoop destPath entries w).2.files = extractedFiles destPath entries w.files ∧
      (∀ q, w.dirs q = true → (extractLoop destPath entries w).2.dirs q = true) ∧
      (∀ e ∈ entries, (extractLoop destPath entries w).2.dirs
        (filepath.Dir (filepath.Join destPath e.Name)) = true) := by
  induction entries with
  | nil =>
    intro w _ _ _ _ _
    exact ⟨rfl, rfl, fun _ h => h, fun e he => by cases he⟩
  | cons e rest ih =>
    intro w hfault hopen hfree hnd hsep
    have he : e ∈ e :: rest := List.mem_cons_self _ _
    rw [extractLoop_step destPath hroot e rest w hfault (hopen e he) (hfree e he) (hnd e he)
      (hsep e he e he)]
    obtain ⟨h1, h2, h3, h4⟩ := ih (afterEntry destPath w e)
      (by intro c; exact hfault c)
      (fun e' he' => hopen e' (List.mem_cons_of_mem _ he'))
      (by
        intro e' he' d hd
        have hne : d ≠ filepath.Join destPath e.Name := by
          intro hEq
          exact hsep e he e' (List.mem_cons_of_mem _ he') (hEq ▸ hd)
        simp only [afterEntry, setFile, hne, if_false]
        exact hfree e' (List.mem_cons_of_mem _ he') d hd)
      (by
        intro e' he'
        have hnot := hsep e' (List.mem_cons_of_mem _ he') e he
        have hc : (filepath.ancestors (filepath.Dir (filepath.Join destPath e.Name))).contains
            (filepath.Join destPath e'.Name) = false := by simpa using hnot
        simp only [afterEntry, hc, hnd e' (List.mem_cons_of_mem _ he'), Bool.or_self])
      (fun a ha b hb => hsep a (List.mem_cons_of_mem _ ha) b (List.mem_cons_of_mem _ hb))
    refine ⟨h1, ?_, ?_, ?_⟩
    · rw [h2, extractedFiles]
      rfl
    · intro q hq
      apply h3
      simp [afterEntry, hq]
    · intro e' he'
      rcases List.mem_cons.mp he' with rfl | hmem
      · apply h3
        have hself := filepath.mem_ancestors_Dir (filepath.Join destPath e'.Name)
        simp [afterEntry, hself]
      · exact h4 e' hmem

/-- The failures that come from the tree itself. A listing with the
directory member `dir/` before `dir/page.html`: the first is written as a
regular file, so `MkdirAll` for the second fails with `ENOTDIR` and
`page.html` is not written. A member whose joined path is the root: `Create`
fails with `EISDIR`. The empty root: `MkdirAll` fails with `ENOENT` and
nothing is written. -/
theorem extract_fails_from_the_tree :
    (((handleAt "site.zim").Extract "/out"
        (zipWorld "site.zim" [⟨"dir/", [], none⟩, ⟨"dir/page.html", [1], none⟩])).1 =
          some Error.ENOTDIR ∧
      ((handleAt "site.zim").Extract "/out"
        (zipWorld "site.zim" [⟨"dir/", [], none⟩, ⟨"dir/page.html", [1], none⟩])).2.files
          "/out/dir/page.html" = none) ∧
    ((handleAt "site.zim").Extract "/out"
        (zipWorld "site.zim" [⟨".", [1], none⟩])).1 = some Error.EISDIR ∧
    (((handleAt "site.zim").Extract ""
        (zipWorld "site.zim" [⟨"a.txt", [1], none⟩])).1 = some Error.ENOENT ∧
      ((handleAt "site.zim").Extract ""
        (zipWorld "site.zim" [⟨"a.txt", [1], none⟩])).2.files "a.txt" = none) := by
  refine ⟨⟨by decide, by decide⟩, by decide, ⟨by decide, by decide⟩⟩

/-- C9 (amended). `Extract` neither rejects nor rewrites a member name:
every call it issues is on the destination root, on `filepath.Join(root,
name)` for a member of the listing, or on `filepath.Dir` of that path. When
the root is not empty and every member name, cleaned on its own, is not
empty and keeps no `..` element, all these paths lie inside the root. -/
theorem extract_paths (zf : ZimFile) (destPath : String) (w : World)
    (entries : List ZipEntry) (hlist : w.container zf.FilePath = Except.ok entries) :
    (∀ call ∈ (zf.Extract destPath w).2.trace,
        call ∈ w.trace ∨ call = FsCall.mkdirAll destPath ∨
          ∃ e ∈ entries, call ∈ entryCalls destPath e) ∧
      (destPath ≠ "" → (∀ e ∈ entries, safeName e.Name) →
        ∀ call ∈ (zf.Extract destPath w).2.trace,
          call ∈ w.trace ∨ filepath.inside destPath call.path) := by
  refine ⟨fun call h => Extract_trace zf destPath w entries hlist call h, ?_⟩
  intro hroot hsafe call h
  rcases Extract_trace zf destPath w entries hlist call h with h1 | h1 | ⟨e, he, h1⟩
  · exact Or.inl h1
  · right
    rw [h1]
    exact filepath.inside_self destPath
  · right
    obtain ⟨hne, hdd⟩ := hsafe e he
    simp only [entryCalls, List.mem_cons, List.mem_singleton, List.not_mem_nil, or_false] at h1
    rcases h1 with h1 | h1 | h1
    · rw [h1]; exact filepath.inside_Dir_Join destPath e.Name hroot hdd hne
    · rw [h1]; exact filepath.inside_Join destPath e.Name hroot hdd
    · rw [h1]; exact filepath.inside_Join destPath e.Name hroot hdd

/-- C9 (amended), for `a/../b.txt` and `dir/page.html` extracted into
`/tmp/out`: the first member is created at `/tmp/out/b.txt`, the directory
made for the second is `/tmp/out/dir`, and both lie inside `/tmp/out`. -/
theorem extract_paths_witness :
    (FsCall.create "/tmp/out/b.txt" ∈ ((handleAt "site.zim").Extract "/tmp/out"
        (zipWorld "site.zim" tameEntries)).2.trace ∧
      filepath.inside "/tmp/out" (FsCall.create "/tmp/out/b.txt").path) ∧
    (FsCall.mkdirAll "/tmp/out/dir" ∈ ((handleAt "site.zim").Extract "/tmp/out"
        (zipWorld "site.zim" tameEntries)).2.trace ∧
      filepath.inside "/tmp/out" (FsCall.mkdirAll "/tmp/out/dir").path) :=
  ⟨⟨by decide,
      ((extract_paths (handleAt "site.zim") "/tmp/out" (zipWorld "site.zim" tameEntries)
        tameEntries (by simp [zipWorld, handleAt])).2 (by decide) (by decide)
        (FsCall.create "/tmp/out/b.txt") (by decide)).resolve_left (by decide)⟩,
    ⟨by decide,
      ((extract_paths (handleAt "site.zim") "/tmp/out" (zipWorld "site.zim" tameEntries)
        tameEntries (by simp [zipWorld, handleAt])).2 (by decide) (by decide)
        (FsCall.mkdirAll "/tmp/out/dir") (by decide)).resolve_left (by decide)⟩⟩

/-- C9 as stated fails for the member name `../x` and the root `/tmp/out`:
`Extract` returns no error, creates the file `/tmp/x` and writes the
member's bytes to it, and `/tmp/x` is not inside `/tmp/out`. The name
`a/../../x` is joined to the same path. -/
theorem extract_escapes_root :
    ((handleAt "evil.zim").Extract "/tmp/out"
        (zipWorld "evil.zim" [⟨"../x", [1], none⟩])).1 = none ∧
      FsCall.create "/tmp/x" ∈ ((handleAt "evil.zim").Extract "/tmp/out"
        (zipWorld "evil.zim" [⟨"../x", [1], none⟩])).2.trace ∧
      ((handleAt "evil.zim").Extract "/tmp/out"
        (zipWorld "evil.zim" [⟨"../x", [1], none⟩])).2.files "/tmp/x" = some [1] ∧
      ¬ filepath.inside "/tmp/out" "/tmp/x" ∧
      filepath.Join "/tmp/out" "a/../../x" = "/tmp/x" := by
  refine ⟨by decide, by decide, by decide, by decide, by decide⟩

end Zimgo
